import Mathlib

/-!
Verification of the repository-scan classification engine of the
black-hole-orchestrator dashboard (the scan route handler in
src/server/routes.ts).

The engine is embedded shallowly:

- JavaScript strings are modelled as Lean strings, viewed as lists of
  characters via String.data.  Case-insensitive regex matching and the
  toUpperCase name transform are modelled with the per-character ASCII
  case map Char.toUpper (the inputs of interest are ASCII).
- Each regular expression of the pattern table is translated into an
  explicit character-list matcher that realises exactly the language of
  the original expression (anchored prefixes/suffixes, a capture group
  of non-slash characters, negative lookahead, and so on).
- The two network-backed lookups (file contents and last-commit dates)
  are modelled as functions from path to Option String.  A provider
  returning none stands for a fetch that throws or yields no usable
  content field; the code swallows those failures, which the embedding
  mirrors by total functions.
- The insertion-ordered JavaScript Map used for grouping is modelled by
  its extensional behaviour: keys in order of first appearance, each key
  mapped to the sublist of files carrying that agent name.
-/

namespace BHOrch

/-! ## Character and string helpers (JavaScript semantics) -/

/-- Whitespace class of JavaScript (regex \s and String.prototype.trim). -/
def jsIsSpace (c : Char) : Bool :=
  c == ' ' || c == '\t' || c == '\n' || c == '\r' || c == '\x0b' || c == '\x0c' ||
  c == '\u00A0' || c == '\u1680' ||
  (decide (0x2000 ≤ c.toNat) && decide (c.toNat ≤ 0x200A)) ||
  c == '\u2028' || c == '\u2029' || c == '\u202F' || c == '\u205F' ||
  c == '\u3000' || c == '\uFEFF'

/-- Strip leading and trailing JavaScript whitespace from a character list. -/
def trimChars (l : List Char) : List Char :=
  ((l.dropWhile jsIsSpace).reverse.dropWhile jsIsSpace).reverse

/-- Model of String.prototype.trim. -/
def jsTrim (s : String) : String := String.mk (trimChars s.data)

/-- Model of String.prototype.toUpperCase restricted to the ASCII case map. -/
def jsToUpper (s : String) : String := String.mk (s.data.map Char.toUpper)

/-- Case-sensitive test that pat is a prefix of l. -/
def hasPre : List Char → List Char → Bool
  | _, [] => true
  | [], _ :: _ => false
  | c :: l, d :: pat => c == d && hasPre l pat

/-- Case-sensitive contiguous-substring test (String.prototype.includes). -/
def hasSub : List Char → List Char → Bool
  | l, pat =>
    if hasPre l pat then true
    else match l with
      | [] => false
      | _ :: rest => hasSub rest pat

/-- Case-insensitive prefix removal: if pat is a prefix of l up to the
ASCII case map, return the remainder of l (in its original case). -/
def ciDropPre? : List Char → List Char → Option (List Char)
  | l, [] => some l
  | [], _ :: _ => none
  | c :: l, d :: pat => if c.toUpper = d.toUpper then ciDropPre? l pat else none

/-- Case-insensitive suffix removal, by reversal. -/
def ciDropSuf? (l suf : List Char) : Option (List Char) :=
  (ciDropPre? l.reverse suf.reverse).map List.reverse

/-- Boolean form of case-insensitive prefix testing. -/
def ciHasPre (l pat : List Char) : Bool := (ciDropPre? l pat).isSome

/-- Split a character list at every occurrence of sep, keeping empty
pieces (the semantics of String.prototype.split with a one-character
separator). -/
def splitOnC (sep : Char) : List Char → List (List Char)
  | [] => [[]]
  | c :: rest =>
    if c = sep then [] :: splitOnC sep rest
    else match splitOnC sep rest with
      | [] => [[c]]
      | l :: ls => (c :: l) :: ls

/-- Join character-list pieces with a newline (Array.prototype.join). -/
def joinC : List (List Char) → List Char
  | [] => []
  | [l] => l
  | l :: ls => l ++ '\n' :: joinC ls

/-- Model of content.split with a newline separator, at the String level. -/
def splitNL (s : String) : List String := (splitOnC '\n' s.data).map String.mk

/-- Model of Array.prototype.join with a newline separator, at the String level. -/
def joinNL (ls : List String) : String := String.mk (joinC (ls.map String.data))

/-- Keep the first occurrence of every element, dropping later
duplicates (the iteration order of a JavaScript Set built from a list). -/
def dedupFirst : List String → List String
  | [] => []
  | k :: rest => k :: (dedupFirst rest).filter (fun x => !(x == k))

/-! ## Data model of the classifier (routes.ts, scan handler) -/

/-- The fileType union of the ClassifiedFile record in routes.ts. -/
inductive FileKind where
  | planningPrompt
  | executionPrompt
  | prompt
  | status
  | progress
  | plan
  | governance
  | other
deriving DecidableEq, Repr

/-- ClassifiedFile of routes.ts: path, file type, extracted agent name. -/
structure ClassifiedFile where
  path : String
  fileType : FileKind
  agentName : String
deriving DecidableEq, Repr

/-- One entry of the recursive git tree; only entries of type blob are files. -/
structure TreeEntry where
  type : String
  path : String
deriving DecidableEq, Repr

/-! ## Pattern table

Each regular expression of the patterns array in routes.ts is translated
into an explicit matcher.  All of them are anchored on both sides and
case-insensitive. -/

/-- Matcher for anchored expressions of shape PRE([^/]+)SUF with the i
flag: the path must ci-start with pre and ci-end with suf, and the
capture between them must be non-empty and slash-free.  Returns the
capture in its original case. -/
def capMid (pre suf : List Char) (p : List Char) : Option (List Char) :=
  match ciDropPre? p pre with
  | none => none
  | some rest =>
    match ciDropSuf? rest suf with
    | none => none
    | some mid => if mid.isEmpty || mid.contains '/' then none else some mid

/-- docs/prompts/planning-([^/]+)\.md anchored, case-insensitive. -/
def matchPlanning (p : String) : Option String :=
  (capMid "docs/prompts/planning-".data ".md".data p.data).map String.mk

/-- docs/prompts/execution-([^/]+)\.md anchored, case-insensitive. -/
def matchExecution (p : String) : Option String :=
  (capMid "docs/prompts/execution-".data ".md".data p.data).map String.mk

/-- docs/prompts/(?!planning-|execution-|README)([^/]+)\.md anchored,
case-insensitive; the negative lookahead is tested on the remainder of
the path after the docs/prompts/ prefix. -/
def matchPromptGeneric (p : String) : Option String :=
  match ciDropPre? p.data "docs/prompts/".data with
  | none => none
  | some rest =>
    if ciHasPre rest "planning-".data || ciHasPre rest "execution-".data ||
       ciHasPre rest "README".data then none
    else match ciDropSuf? rest ".md".data with
      | none => none
      | some mid => if mid.isEmpty || mid.contains '/' then none else some (String.mk mid)

/-- docs/status/([^/]+)\.md anchored, case-insensitive. -/
def matchStatus (p : String) : Option String :=
  (capMid "docs/status/".data ".md".data p.data).map String.mk

/-- docs/PROGRESS-([^/]+)\.md anchored, case-insensitive. -/
def matchProgress (p : String) : Option String :=
  (capMid "docs/PROGRESS-".data ".md".data p.data).map String.mk

/-- A JavaScript dot without the s flag matches any character except a
line terminator. -/
def jsDot (c : Char) : Bool :=
  !(c == '\n' || c == '\r' || c == '\u2028' || c == '\u2029')

/-- Test that .+ anchored at the end matches a remainder: non-empty and
free of line terminators. -/
def dotPlus (l : List Char) : Bool := !l.isEmpty && l.all jsDot

/-- \.sys/plans/([^/]+)/.+ anchored, case-insensitive. -/
def matchPlanSubdir (p : String) : Option String :=
  match ciDropPre? p.data ".sys/plans/".data with
  | none => none
  | some rest =>
    let mid := rest.takeWhile (fun c => !(c == '/'))
    match rest.drop mid.length with
    | '/' :: tail => if mid.isEmpty || !(dotPlus tail) then none else some (String.mk mid)
    | _ => none

/-- AGENTS\.md anchored on both sides, case-insensitive. -/
def isAgentsMd (p : String) : Bool := p.data.map Char.toUpper == "AGENTS.MD".data

/-- CLAUDE\.md anchored on both sides, case-insensitive. -/
def isClaudeMd (p : String) : Bool := p.data.map Char.toUpper == "CLAUDE.MD".data

/-- \.github/agents/.+ anchored, case-insensitive. -/
def isGithubAgents (p : String) : Bool :=
  match ciDropPre? p.data ".github/agents/".data with
  | some tail => dotPlus tail
  | none => false

/-- Pass 1 classification of one path: the patterns array is walked in
declaration order and the first matching entry wins (the loop in
routes.ts breaks on the first match). -/
def classifyPath (p : String) : Option ClassifiedFile :=
  match matchPlanning p with
  | some n => some ⟨p, FileKind.planningPrompt, jsToUpper n⟩
  | none =>
  match matchExecution p with
  | some n => some ⟨p, FileKind.executionPrompt, jsToUpper n⟩
  | none =>
  match matchPromptGeneric p with
  | some n => some ⟨p, FileKind.prompt, jsToUpper n⟩
  | none =>
  match matchStatus p with
  | some n => some ⟨p, FileKind.status, jsToUpper n⟩
  | none =>
  match matchProgress p with
  | some n => some ⟨p, FileKind.progress, jsToUpper n⟩
  | none =>
  match matchPlanSubdir p with
  | some n => some ⟨p, FileKind.plan, jsToUpper n⟩
  | none =>
  if isAgentsMd p then some ⟨p, FileKind.governance, "_SHARED"⟩
  else if isClaudeMd p then some ⟨p, FileKind.governance, "_SHARED"⟩
  else if isGithubAgents p then some ⟨p, FileKind.other, "_SHARED"⟩
  else none

/-- Pass 1 over the whole tree: only blob entries are considered, in
tree order, each contributing at most one ClassifiedFile. -/
def primaryPass (tree : List TreeEntry) : List ClassifiedFile :=
  (tree.filter (fun i => i.type == "blob")).filterMap (fun i => classifyPath i.path)

/-! ## Pass 2: loose plan attribution -/

/-- Anchored case-insensitive test for \.sys/plans/([^/]+)\.md, the
candidate filter of the loose-plan pass. -/
def loosePlanTest (p : String) : Bool :=
  (capMid ".sys/plans/".data ".md".data p.data).isSome

/-- The filename of a path: p.split with a slash separator, then the
last piece (pop), with undefined or empty replaced by the empty string. -/
def fileNameOf (p : String) : String :=
  String.mk ((splitOnC '/' p.data).getLastD [])

/-- The known-agent set: agent names of already-classified files except
the _SHARED sentinel, in JavaScript Set iteration order (first
occurrence). -/
def knownAgentsOf (cfs : List ClassifiedFile) : List String :=
  dedupFirst ((cfs.map (fun f => f.agentName)).filter (fun n => !(n == "_SHARED")))

/-- The agent the loose-plan pass would attribute a path to: the first
known agent (in set iteration order) whose name is contained in the
upper-cased filename. -/
def looseAgentFor (known : List String) (p : String) : Option String :=
  known.find? (fun a => hasSub (jsToUpper (fileNameOf p)).data a.data)

/-- One iteration of the loose-plan loop in routes.ts: skip non-blob
entries, paths not matching the candidate expression, and paths already
present in the classified list; otherwise append a plan record for the
first containing known agent, or nothing when no agent name is
contained. -/
def looseStep (known : List String) (acc : List ClassifiedFile) (item : TreeEntry) :
    List ClassifiedFile :=
  if item.type == "blob" && loosePlanTest item.path &&
     !(acc.any (fun c => c.path == item.path)) then
    match looseAgentFor known item.path with
    | some a => acc ++ [⟨item.path, FileKind.plan, a⟩]
    | none => acc
  else acc

/-- The loose-plan loop: fold over the tree, starting from the pass 1
result, with the known-agent set fixed from pass 1. -/
def loosePassAux (known : List String) (acc : List ClassifiedFile) :
    List TreeEntry → List ClassifiedFile
  | [] => acc
  | item :: rest => loosePassAux known (looseStep known acc item) rest

/-- Both passes: the full classified list of a scan. -/
def allClassified (tree : List TreeEntry) : List ClassifiedFile :=
  loosePassAux (knownAgentsOf (primaryPass tree)) (primaryPass tree) tree

/-! ## Grouping and representative-file selection -/

/-- Grouping by agent name.  The JavaScript Map in routes.ts iterates
keys in insertion order and collects each key's files in list order;
extensionally that is: first-occurrence-ordered keys, each paired with
the sublist of files carrying that agent name. -/
def groupByAgent (cfs : List ClassifiedFile) : List (String × List ClassifiedFile) :=
  (dedupFirst (cfs.map (fun f => f.agentName))).map
    (fun k => (k, cfs.filter (fun f => f.agentName == k)))

/-- The description-source path of a group: first status file, else
first planning prompt, else first plain prompt, else the first file. -/
def descPathOf (files : List ClassifiedFile) : Option String :=
  ((match files.find? (fun f => f.fileType == FileKind.status) with
   | some f => some f
   | none =>
   match files.find? (fun f => f.fileType == FileKind.planningPrompt) with
   | some f => some f
   | none =>
   match files.find? (fun f => f.fileType == FileKind.prompt) with
   | some f => some f
   | none => files.head? : Option ClassifiedFile)).map (fun f => f.path)

/-- The boundary-source path of a group: first planning prompt, else
first execution prompt, else first plain prompt, else none. -/
def boundaryPathOf (files : List ClassifiedFile) : Option String :=
  ((match files.find? (fun f => f.fileType == FileKind.planningPrompt) with
   | some f => some f
   | none =>
   match files.find? (fun f => f.fileType == FileKind.executionPrompt) with
   | some f => some f
   | none => files.find? (fun f => f.fileType == FileKind.prompt) :
     Option ClassifiedFile)).map (fun f => f.path)

/-! ## Content and date resolution -/

/-- What the memoised fetchContent of routes.ts yields for a path: the
provider's text when the fetch succeeds and the decoded content field is
truthy (non-empty); otherwise nothing, the failure being swallowed. -/
def contentGet (provider : String → Option String) (p : String) : Option String :=
  match provider p with
  | some c => if c = "" then none else some c
  | none => none

/-- What the memoised fetchFileDate of routes.ts yields for a path: the
provider's date when the lookup succeeds and the date is truthy. -/
def dateGet (provider : String → Option String) (p : String) : Option String :=
  match provider p with
  | some d => if d = "" then none else some d
  | none => none

/-- Dates are resolved only for plan, status and progress files; every
other kind keeps a null date (the filePathsToDate set in routes.ts). -/
def dateOf (dates : String → Option String) (f : ClassifiedFile) : Option String :=
  if f.fileType = FileKind.plan ∨ f.fileType = FileKind.status ∨
     f.fileType = FileKind.progress then dateGet dates f.path
  else none

/-! ## Boundary extraction

The code matches content against the regular expression
  ## Boundaries\n([\s\S]*?)(?=\n##|\n$|$)   (i flag)
and post-processes the first capture.  The match is an unanchored search
for the first case-insensitive occurrence of the literal followed by a
newline; the lazy capture then extends to the first position where a
newline-then-two-hashes follows, or where a final newline follows, or to
the end of the text. -/

/-- The header literal of the boundary regular expression. -/
def hdrChars : List Char := "## Boundaries\n".data

/-- The lookahead (?=\n##|\n$|$) holds at a position iff the remaining
text starts with a newline and two hashes, or is exactly a final
newline; the end-of-text alternative is handled by the caller. -/
def isStop (l : List Char) : Bool :=
  hasPre l ['\n', '#', '#'] || l == ['\n']

/-- The lazy capture: consume characters until the lookahead holds or
the text ends. -/
def takeCapture : List Char → List Char
  | [] => []
  | c :: rest => if isStop (c :: rest) then [] else c :: takeCapture rest

/-- Unanchored search for the first case-insensitive occurrence of the
header literal; returns the text right after it. -/
def dropToHeader : List Char → Option (List Char)
  | [] => none
  | l@(_ :: rest) =>
    match ciDropPre? l hdrChars with
    | some r => some r
    | none => dropToHeader rest

/-- A line contributes a boundary iff it starts with a dash after
trimming (the filter in routes.ts). -/
def dashLine (l : List Char) : Bool := hasPre (trimChars l) ['-']

/-- Post-processing of one kept line: l.replace of an anchored leading
dash plus whitespace run with the empty string, then trim.  The replace
only fires when the dash is the very first character of the line. -/
def stripDashC (l : List Char) : List Char :=
  trimChars (match l with
    | '-' :: r => r.dropWhile jsIsSpace
    | _ => l)

/-- The boundaries value the code computes from a boundary file's
content: none when the regular expression does not match, otherwise the
kept lines of the capture, post-processed. -/
def extractBoundaries (content : String) : Option (List String) :=
  match dropToHeader content.data with
  | none => none
  | some rest =>
    some (((splitOnC '\n' (takeCapture rest)).filter dashLine).map
      (fun l => String.mk (stripDashC l)))

/-! ## Role building -/

/-- One file entry of a role, as serialised by routes.ts. -/
structure AgentFileOut where
  path : String
  type : FileKind
  date : Option String
deriving DecidableEq, Repr

/-- One role of the scan output. -/
structure Role where
  name : String
  description : Option String
  files : List AgentFileOut
  category : String
  boundaries : Option (List String)
  status : String
deriving DecidableEq, Repr

/-- Build one role from an agent group, the cached contents and the
cached dates, exactly as the role-construction loop of routes.ts. -/
def buildRole (content dates : String → Option String)
    (g : String × List ClassifiedFile) : Role :=
  let agentName := g.1
  let files := g.2
  let hasPlanning := files.any (fun f => f.fileType == FileKind.planningPrompt)
  let hasExecution := files.any (fun f => f.fileType == FileKind.executionPrompt)
  let category :=
    if agentName = "_SHARED" then "shared"
    else if hasPlanning || hasExecution then "domain" else "daily"
  let description : Option String :=
    match descPathOf files with
    | none => none
    | some dp =>
      match contentGet content dp with
      | none => none
      | some c =>
        let d := jsTrim (joinNL ((splitNL c).take 5))
        some (if d = "" then "Agent: " ++ agentName else d)
  let bRaw : Option (List String) :=
    match boundaryPathOf files with
    | none => none
    | some bp =>
      match contentGet content bp with
      | none => none
      | some c => extractBoundaries c
  let boundaries : Option (List String) :=
    match bRaw with
    | some l => if l.isEmpty then none else some l
    | none => none
  { name := if agentName = "_SHARED" then "SHARED" else agentName
    description := description
    files := files.map (fun f => ⟨f.path, f.fileType, dateOf dates f⟩)
    category := category
    boundaries := boundaries
    status := "active" }

/-- The whole scan: classify (two passes), group, and build one role per
agent group, in group order.  Content and date lookups are injected. -/
def scan (tree : List TreeEntry) (content dates : String → Option String) : List Role :=
  (groupByAgent (allClassified tree)).map (buildRole content dates)

/-! ## Specification-side definitions

These definitions follow the wording of the specification (amended where
a counterexample forces it), phrased at the line level rather than the
character level, so that comparing them with the source-derived
definitions above is meaningful. -/

/-- Line-level reading of the lazy capture: the first line after the
header is always part of the section; later lines are taken until the
first one that starts with two hashes; a lone trailing empty line (from
a final newline) may additionally survive here, which is harmless after
the dash filter. -/
def capLines : List (List Char) → List (List Char)
  | [] => []
  | [l] => [l]
  | l :: l2 :: ls =>
    if l2 = [] ∧ ls = [] then [l]
    else if hasPre l2 ['#', '#'] then [l] else l :: capLines (l2 :: ls)

/-- Specification wording of the section lines: the lines following the
header until the next line opening with two hashes, or the end of the
text. -/
def sectionTake : List (List Char) → List (List Char)
  | [] => []
  | l0 :: r => l0 :: r.takeWhile (fun l => !(hasPre l ['#', '#']))

/-- Specification wording of the per-line post-processing (amended): a
kept line whose dash is the very first character loses the dash and the
following whitespace run and is then trimmed; a kept line with an
indented dash is only trimmed. -/
def stripSpec (l : List Char) : List Char :=
  if hasPre l ['-'] then trimChars ((l.drop 1).dropWhile jsIsSpace) else trimChars l

/-- Specification-side boundary extraction: locate the section, keep its
dash lines, post-process each. -/
def c3BoundariesSpec (content : String) : Option (List String) :=
  match dropToHeader content.data with
  | none => none
  | some rest =>
    some (((sectionTake (splitOnC '\n' rest)).filter dashLine).map
      (fun l => String.mk (stripSpec l)))

/-- Specification wording of the description rule (amended): first five
lines of the description source, joined and trimmed; the synthesized
fallback fires only when the fetch succeeded with non-empty text whose
trimmed five-line head is empty; a missing source, a failed fetch, or
empty fetched text yield null. -/
def c8DescSpec (n : String) (dp : Option String) (provider : String → Option String) :
    Option String :=
  match dp with
  | none => none
  | some p =>
    match provider p with
    | none => none
    | some cont =>
      if cont = "" then none
      else
        let t := jsTrim (joinNL ((splitNL cont).take 5))
        some (if t = "" then "Agent: " ++ n else t)

/-! ## Lemmas: split and capture -/

theorem splitOnC_ne_nil (sep : Char) (l : List Char) : splitOnC sep l ≠ [] := by
  cases l with
  | nil => simp [splitOnC]
  | cons c rest =>
    simp only [splitOnC]
    by_cases h : c = sep
    · simp [h]
    · simp only [if_neg h]
      cases hs : splitOnC sep rest <;> simp

theorem splitOnC_cons_self (sep : Char) (rest : List Char) :
    splitOnC sep (sep :: rest) = [] :: splitOnC sep rest := by
  simp [splitOnC]

theorem splitOnC_cons_ne (sep c : Char) (rest : List Char) (h : ¬ c = sep)
    (l0 : List Char) (ls : List (List Char)) (hs : splitOnC sep rest = l0 :: ls) :
    splitOnC sep (c :: rest) = (c :: l0) :: ls := by
  simp [splitOnC, h, hs]

theorem splitOnC_exists_cons (sep : Char) (l : List Char) :
    ∃ l0 ls, splitOnC sep l = l0 :: ls := by
  cases hs : splitOnC sep l with
  | nil => exact absurd hs (splitOnC_ne_nil sep l)
  | cons a as => exact ⟨a, as, rfl⟩

theorem splitOnC_eq_single (sep : Char) (l : List Char) (h : splitOnC sep l = [[]]) :
    l = [] := by
  cases l with
  | nil => rfl
  | cons c rest =>
    exfalso
    by_cases hc : c = sep
    · rw [hc, splitOnC_cons_self] at h
      injection h with h1 h2
      exact splitOnC_ne_nil sep rest h2
    · obtain ⟨l0, ls, hs⟩ := splitOnC_exists_cons sep rest
      rw [splitOnC_cons_ne sep c rest hc l0 ls hs] at h
      injection h with h1 h2
      simp at h1

theorem hasPre_nil_pat (l : List Char) : hasPre l [] = true := by
  cases l <;> rfl

theorem hasPre_iff_append (pat : List Char) :
    ∀ l, hasPre l pat = true ↔ ∃ r, l = pat ++ r := by
  induction pat with
  | nil =>
    intro l
    simp [hasPre_nil_pat]
  | cons d pat' ih =>
    intro l
    cases l with
    | nil => simp [hasPre]
    | cons c l' =>
      simp only [hasPre, Bool.and_eq_true, beq_iff_eq, ih l', List.cons_append]
      constructor
      · rintro ⟨rfl, r, rfl⟩
        exact ⟨r, rfl⟩
      · rintro ⟨r, hr⟩
        injection hr with h1 h2
        exact ⟨h1, r, h2⟩

theorem hasPre_headD : ∀ (t pat : List Char), '\n' ∉ pat →
    hasPre ((splitOnC '\n' t).headD []) pat = hasPre t pat := by
  intro t
  induction t with
  | nil => intro pat hp; rfl
  | cons c rest ih =>
    intro pat hp
    by_cases hc : c = '\n'
    · subst hc
      rw [splitOnC_cons_self]
      cases pat with
      | nil => simp [hasPre_nil_pat]
      | cons d pat' =>
        have hd : ¬ ('\n' = d) := fun h => hp (by rw [h]; exact List.mem_cons_self _ _)
        simp [hasPre, hd]
    · obtain ⟨l0, ls, hs⟩ := splitOnC_exists_cons '\n' rest
      rw [splitOnC_cons_ne '\n' c rest hc l0 ls hs]
      cases pat with
      | nil => simp [hasPre_nil_pat]
      | cons d pat' =>
        have h2 : hasPre ((splitOnC '\n' rest).headD []) pat' = hasPre rest pat' :=
          ih pat' (fun h => hp (List.mem_cons_of_mem _ h))
        rw [hs] at h2
        simp only [List.headD_cons] at h2 ⊢
        simp [hasPre, h2]

theorem splitOnC_takeCapture : ∀ rest : List Char,
    splitOnC '\n' (takeCapture rest) = capLines (splitOnC '\n' rest) := by
  intro rest
  induction rest with
  | nil => rfl
  | cons c t ih =>
    by_cases hstop : isStop (c :: t) = true
    · have hcap : takeCapture (c :: t) = [] := by simp [takeCapture, hstop]
      rw [hcap]
      simp only [isStop, Bool.or_eq_true] at hstop
      rcases hstop with hsharp | heq
      · obtain ⟨r, hr⟩ := (hasPre_iff_append _ _).mp hsharp
        simp only [List.cons_append, List.nil_append] at hr
        injection hr with h1 h2
        subst h1
        subst h2
        obtain ⟨l0, ls, hs⟩ := splitOnC_exists_cons '\n' r
        have hs1 : splitOnC '\n' ('#' :: r) = ('#' :: l0) :: ls :=
          splitOnC_cons_ne '\n' '#' r (by decide) l0 ls hs
        have hs2 : splitOnC '\n' ('#' :: '#' :: r) = ('#' :: '#' :: l0) :: ls :=
          splitOnC_cons_ne '\n' '#' ('#' :: r) (by decide) ('#' :: l0) ls hs1
        rw [splitOnC_cons_self, hs2]
        simp [capLines, hasPre, splitOnC]
      · have he : c :: t = ['\n'] := by simpa using heq
        injection he with h1 h2
        subst h1
        subst h2
        simp [splitOnC_cons_self, splitOnC, capLines]
    · have hcap : takeCapture (c :: t) = c :: takeCapture t := by
        simp [takeCapture, hstop]
      rw [hcap]
      have hns : hasPre (c :: t) ['\n', '#', '#'] = false ∧ ((c :: t) == ['\n']) = false := by
        constructor
        · cases hx : hasPre (c :: t) ['\n', '#', '#'] with
          | false => rfl
          | true => exact absurd (by simp [isStop, hx]) hstop
        · cases hx : (c :: t) == ['\n'] with
          | false => rfl
          | true => exact absurd (by simp [isStop, hx]) hstop
      by_cases hc : c = '\n'
      · subst hc
        rw [splitOnC_cons_self, splitOnC_cons_self, ih]
        obtain ⟨t0, ts, hs⟩ := splitOnC_exists_cons '\n' t
        rw [hs]
        have ht : t ≠ [] := by
          rintro rfl
          simp at hns
        have hsharpT : hasPre t ['#', '#'] = false := by
          have h1 := hns.1
          simpa [hasPre] using h1
        have ht0 : hasPre t0 ['#', '#'] = false := by
          have h3 := hasPre_headD t ['#', '#'] (by decide)
          rw [hs] at h3
          simp only [List.headD_cons] at h3
          rw [h3, hsharpT]
        have hnotsingle : ¬ (t0 = [] ∧ ts = []) := by
          rintro ⟨rfl, rfl⟩
          exact ht (splitOnC_eq_single '\n' t hs)
        simp [capLines, hnotsingle, ht0]
      · obtain ⟨t0, ts, hs⟩ := splitOnC_exists_cons '\n' t
        rw [splitOnC_cons_ne '\n' c t hc t0 ts hs]
        have ihx : splitOnC '\n' (takeCapture t) = capLines (t0 :: ts) := by rw [ih, hs]
        rcases ts with _ | ⟨t1, ts2⟩
        · have hx : capLines [t0] = [t0] := rfl
          rw [splitOnC_cons_ne '\n' c (takeCapture t) hc t0 [] (ihx.trans hx)]
          rfl
        · by_cases h12 : t1 = [] ∧ ts2 = []
          · obtain ⟨rfl, rfl⟩ := h12
            have hx : capLines [t0, []] = [t0] := by simp [capLines]
            rw [splitOnC_cons_ne '\n' c (takeCapture t) hc t0 [] (ihx.trans hx)]
            simp [capLines]
          · by_cases hsharp : hasPre t1 ['#', '#'] = true
            · have hx : capLines (t0 :: t1 :: ts2) = [t0] := by
                simp [capLines, h12, hsharp]
              rw [splitOnC_cons_ne '\n' c (takeCapture t) hc t0 [] (ihx.trans hx)]
              simp [capLines, h12, hsharp]
            · have hx : capLines (t0 :: t1 :: ts2) = t0 :: capLines (t1 :: ts2) := by
                simp [capLines, h12, hsharp]
              rw [splitOnC_cons_ne '\n' c (takeCapture t) hc t0 (capLines (t1 :: ts2))
                (ihx.trans hx)]
              simp [capLines, h12, hsharp]

theorem dashLine_nil : dashLine [] = false := rfl

theorem capLines_filter_dash : ∀ ls : List (List Char),
    (capLines ls).filter dashLine = (sectionTake ls).filter dashLine := by
  intro ls
  induction ls with
  | nil => rfl
  | cons l r ih =>
    rcases r with _ | ⟨l2, ls2⟩
    · rfl
    · by_cases h12 : l2 = [] ∧ ls2 = []
      · obtain ⟨rfl, rfl⟩ := h12
        simp [capLines, sectionTake, List.filter, hasPre, dashLine_nil]
      · by_cases hsharp : hasPre l2 ['#', '#'] = true
        · simp [capLines, sectionTake, h12, hsharp, List.takeWhile_cons]
        · have hcap : capLines (l :: l2 :: ls2) = l :: capLines (l2 :: ls2) := by
            simp [capLines, h12, hsharp]
          have hsec : sectionTake (l :: l2 :: ls2) = l :: sectionTake (l2 :: ls2) := by
            simp [sectionTake, List.takeWhile_cons, hsharp]
          rw [hcap, hsec, List.filter_cons, List.filter_cons, ih]

theorem stripDashC_eq_stripSpec (l : List Char) : stripDashC l = stripSpec l := by
  cases l with
  | nil => rfl
  | cons c r =>
    by_cases hc : c = '-'
    · subst hc
      simp [stripDashC, stripSpec, hasPre, hasPre_nil_pat]
    · have h1 : hasPre (c :: r) ['-'] = false := by
        simp [hasPre, hasPre_nil_pat, hc]
      have h2 : stripDashC (c :: r) = trimChars (c :: r) := by
        unfold stripDashC
        split
        · rename_i heq
          injection heq with he1 he2
          exact absurd he1 hc
        · rfl
      rw [h2]
      simp [stripSpec, h1]

/-- The source-derived boundary extraction agrees everywhere with the
line-level specification reading. -/
theorem extractBoundaries_eq_spec (content : String) :
    extractBoundaries content = c3BoundariesSpec content := by
  have hmain : ∀ rest : List Char,
      ((splitOnC '\n' (takeCapture rest)).filter dashLine).map
        (fun l => String.mk (stripDashC l)) =
      ((sectionTake (splitOnC '\n' rest)).filter dashLine).map
        (fun l => String.mk (stripSpec l)) := by
    intro rest
    rw [splitOnC_takeCapture, capLines_filter_dash]
    exact List.map_congr_left (fun l _ => by rw [stripDashC_eq_stripSpec])
  unfold extractBoundaries c3BoundariesSpec
  cases h : dropToHeader content.data with
  | none => rfl
  | some rest => exact congrArg some (hmain rest)

/-! ## Lemmas: header search (claim C10) -/

theorem ciDropPre?_isSome (pat : List Char) : ∀ l : List Char,
    (ciDropPre? l pat).isSome = hasPre (l.map Char.toUpper) (pat.map Char.toUpper) := by
  induction pat with
  | nil => intro l; simp [ciDropPre?, hasPre_nil_pat]
  | cons d pat' ih =>
    intro l
    cases l with
    | nil => simp [ciDropPre?, hasPre]
    | cons c l' =>
      simp only [ciDropPre?, List.map_cons]
      by_cases h : c.toUpper = d.toUpper
      · simp [h, hasPre, ih]
      · simp [h, hasPre]

theorem ciDropPre?_eq_none (l pat : List Char)
    (h : hasPre (l.map Char.toUpper) (pat.map Char.toUpper) = false) :
    ciDropPre? l pat = none := by
  have h2 := ciDropPre?_isSome pat l
  rw [h] at h2
  cases hx : ciDropPre? l pat with
  | none => rfl
  | some r => rw [hx] at h2; simp at h2

theorem dropToHeader_isSome_iff (l : List Char) :
    (dropToHeader l).isSome = true ↔
    ∃ a b, l.map Char.toUpper = a ++ hdrChars.map Char.toUpper ++ b := by
  induction l with
  | nil =>
    simp only [dropToHeader, Option.isSome_none, Bool.false_eq_true, false_iff]
    rintro ⟨a, b, hab⟩
    have : (List.map Char.toUpper ([] : List Char)).length =
        (a ++ hdrChars.map Char.toUpper ++ b).length := by rw [hab]
    simp [hdrChars] at this
    omega
  | cons c rest ih =>
    cases hci : ciDropPre? (c :: rest) hdrChars with
    | some r =>
      have h1 : (dropToHeader (c :: rest)).isSome = true := by
        simp [dropToHeader, hci]
      simp only [h1, true_iff]
      have h2 : hasPre ((c :: rest).map Char.toUpper) (hdrChars.map Char.toUpper) = true := by
        rw [← ciDropPre?_isSome, hci]
        rfl
      obtain ⟨b, hb⟩ := (hasPre_iff_append _ _).mp h2
      exact ⟨[], b, by simpa using hb⟩
    | none =>
      have h1 : dropToHeader (c :: rest) = dropToHeader rest := by
        simp [dropToHeader, hci]
      rw [h1, ih]
      constructor
      · rintro ⟨a, b, hab⟩
        exact ⟨c.toUpper :: a, b, by simp [hab]⟩
      · rintro ⟨a, b, hab⟩
        cases a with
        | nil =>
          exfalso
          have h2 : hasPre ((c :: rest).map Char.toUpper) (hdrChars.map Char.toUpper) = true := by
            apply (hasPre_iff_append _ _).mpr
            exact ⟨b, by simpa using hab⟩
          rw [← ciDropPre?_isSome, hci] at h2
          simp at h2
        | cons x a' =>
          simp only [List.map_cons, List.cons_append] at hab
          injection hab with h2 h3
          exact ⟨a', b, h3⟩

/-! ## Lemmas: grouping and membership -/

theorem mem_dedupFirst {a : String} : ∀ {l : List String}, a ∈ l → a ∈ dedupFirst l := by
  intro l
  induction l with
  | nil => intro h; simp at h
  | cons k rest ih =>
    intro h
    rcases List.mem_cons.mp h with rfl | h2
    · exact List.mem_cons_self _ _
    · by_cases hk : a = k
      · rw [hk]; exact List.mem_cons_self _ _
      · refine List.mem_cons_of_mem _ (List.mem_filter.mpr ⟨ih h2, ?_⟩)
        simp [hk]

theorem group_of_mem {cfs : List ClassifiedFile} {f : ClassifiedFile} (h : f ∈ cfs) :
    (f.agentName, cfs.filter (fun x => x.agentName == f.agentName)) ∈ groupByAgent cfs ∧
    f ∈ cfs.filter (fun x => x.agentName == f.agentName) := by
  constructor
  · unfold groupByAgent
    apply List.mem_map.mpr
    exact ⟨f.agentName, mem_dedupFirst (List.mem_map.mpr ⟨f, h, rfl⟩), rfl⟩
  · exact List.mem_filter.mpr ⟨h, by simp⟩

theorem mem_group_agentName {cfs : List ClassifiedFile}
    {g : String × List ClassifiedFile} (hg : g ∈ groupByAgent cfs) :
    ∀ f ∈ g.2, f.agentName = g.1 := by
  unfold groupByAgent at hg
  obtain ⟨k, _, rfl⟩ := List.mem_map.mp hg
  intro f hf
  have := List.mem_filter.mp hf
  simpa using this.2

theorem mem_scan_of_group {tree : List TreeEntry} {c d : String → Option String}
    {g : String × List ClassifiedFile} (hg : g ∈ groupByAgent (allClassified tree)) :
    buildRole c d g ∈ scan tree c d :=
  List.mem_map.mpr ⟨g, hg, rfl⟩

theorem mem_primaryPass {tree : List TreeEntry} {p : String} {cf : ClassifiedFile}
    (h1 : (⟨"blob", p⟩ : TreeEntry) ∈ tree) (h2 : classifyPath p = some cf) :
    cf ∈ primaryPass tree := by
  unfold primaryPass
  apply List.mem_filterMap.mpr
  exact ⟨⟨"blob", p⟩, List.mem_filter.mpr ⟨h1, by simp⟩, h2⟩

theorem mem_looseStep {known : List String} {acc : List ClassifiedFile}
    {item : TreeEntry} {cf : ClassifiedFile} (h : cf ∈ acc) :
    cf ∈ looseStep known acc item := by
  unfold looseStep
  split
  · split
    · exact List.mem_append_left _ h
    · exact h
  · exact h

theorem mem_loosePassAux {known : List String} :
    ∀ (l : List TreeEntry) (acc : List ClassifiedFile) {cf : ClassifiedFile},
      cf ∈ acc → cf ∈ loosePassAux known acc l := by
  intro l
  induction l with
  | nil => intro acc cf h; exact h
  | cons item rest ih => intro acc cf h; exact ih _ (mem_looseStep h)

theorem mem_allClassified_of_primary {tree : List TreeEntry} {cf : ClassifiedFile}
    (h : cf ∈ primaryPass tree) : cf ∈ allClassified tree :=
  mem_loosePassAux tree _ h

/-- General form of the role-existence argument: any classified file of
a scan gives rise to the role built for its agent group. -/
theorem role_of_classified (c d : String → Option String) {tree : List TreeEntry}
    {cf : ClassifiedFile} (h : cf ∈ allClassified tree) :
    (cf.agentName, (allClassified tree).filter (fun x => x.agentName == cf.agentName)) ∈
      groupByAgent (allClassified tree) ∧
    cf ∈ (allClassified tree).filter (fun x => x.agentName == cf.agentName) ∧
    buildRole c d (cf.agentName,
      (allClassified tree).filter (fun x => x.agentName == cf.agentName)) ∈ scan tree c d := by
  obtain ⟨hg, hf⟩ := group_of_mem h
  exact ⟨hg, hf, mem_scan_of_group hg⟩

/-! ## Lemmas: projections of buildRole -/

theorem buildRole_name (c d : String → Option String) (g : String × List ClassifiedFile) :
    (buildRole c d g).name = if g.1 = "_SHARED" then "SHARED" else g.1 := rfl

theorem buildRole_category (c d : String → Option String) (g : String × List ClassifiedFile) :
    (buildRole c d g).category =
      if g.1 = "_SHARED" then "shared"
      else if g.2.any (fun f => f.fileType == FileKind.planningPrompt) ||
              g.2.any (fun f => f.fileType == FileKind.executionPrompt) then "domain"
      else "daily" := rfl

theorem buildRole_status (c d : String → Option String) (g : String × List ClassifiedFile) :
    (buildRole c d g).status = "active" := rfl

theorem buildRole_description (c d : String → Option String) (g : String × List ClassifiedFile) :
    (buildRole c d g).description =
      match descPathOf g.2 with
      | none => none
      | some dp =>
        match contentGet c dp with
        | none => none
        | some ct =>
          some (if jsTrim (joinNL ((splitNL ct).take 5)) = ""
                then "Agent: " ++ g.1 else jsTrim (joinNL ((splitNL ct).take 5))) := rfl

theorem buildRole_boundaries (c d : String → Option String) (g : String × List ClassifiedFile) :
    (buildRole c d g).boundaries =
      match
        (match boundaryPathOf g.2 with
         | none => none
         | some bp =>
           match contentGet c bp with
           | none => none
           | some ct => extractBoundaries ct) with
      | some l => if l.isEmpty then none else some l
      | none => none := rfl

/-! ## Lemmas: the loose-plan pass -/

theorem looseStep_inv {known : List String} {acc : List ClassifiedFile} {item : TreeEntry}
    {p a : String} (hfind : looseAgentFor known p = some a)
    (hinv : ∀ f ∈ acc, f.path = p → f = ⟨p, FileKind.plan, a⟩) :
    ∀ f ∈ looseStep known acc item, f.path = p → f = ⟨p, FileKind.plan, a⟩ := by
  intro f hf
  unfold looseStep at hf
  revert hf
  split
  · split
    · rename_i a' hfind'
      intro hf hfp
      rcases List.mem_append.mp hf with h | h
      · exact hinv f h hfp
      · have hfe : f = ⟨item.path, FileKind.plan, a'⟩ := by simpa using h
        subst hfe
        simp only at hfp
        rw [hfp] at hfind'
        have ha : a' = a := by
          have := hfind'.symm.trans hfind
          exact Option.some.inj this
        simp [hfp, ha]
    · intro hf hfp
      exact hinv f hf hfp
  · intro hf hfp
    exact hinv f hf hfp

theorem loose_added {p a : String} {known : List String}
    (hfind : looseAgentFor known p = some a) (htest : loosePlanTest p = true) :
    ∀ (l : List TreeEntry) (acc : List ClassifiedFile),
      (∀ f ∈ acc, f.path = p → f = ⟨p, FileKind.plan, a⟩) →
      ((⟨"blob", p⟩ : TreeEntry) ∈ l ∨ (⟨p, FileKind.plan, a⟩ : ClassifiedFile) ∈ acc) →
      (⟨p, FileKind.plan, a⟩ : ClassifiedFile) ∈ loosePassAux known acc l := by
  intro l
  induction l with
  | nil =>
    intro acc hinv hor
    rcases hor with h | h
    · simp at h
    · exact h
  | cons item rest ih =>
    intro acc hinv hor
    refine ih (looseStep known acc item) (looseStep_inv hfind hinv) ?_
    rcases hor with hmem | hacc
    · rcases List.mem_cons.mp hmem with hitem | hrest
      · right
        rw [← hitem]
        by_cases hany : (acc.any (fun cf => cf.path == p)) = true
        · have htgt : (⟨p, FileKind.plan, a⟩ : ClassifiedFile) ∈ acc := by
            obtain ⟨f, hf, hfp⟩ := List.any_eq_true.mp hany
            have he := hinv f hf (by simpa using hfp)
            exact he ▸ hf
          exact mem_looseStep htgt
        · have hany2 : (acc.any (fun cf => cf.path == p)) = false :=
            Bool.eq_false_iff.mpr hany
          simp [looseStep, htest, hany2, hfind]
      · left
        exact hrest
    · right
      exact mem_looseStep hacc

theorem loose_not_added {p : String} {known : List String}
    (hfind : looseAgentFor known p = none) :
    ∀ (l : List TreeEntry) (acc : List ClassifiedFile),
      (∀ f ∈ acc, f.path ≠ p) →
      ∀ f ∈ loosePassAux known acc l, f.path ≠ p := by
  intro l
  induction l with
  | nil => intro acc hinv f hf; exact hinv f hf
  | cons item rest ih =>
    intro acc hinv
    refine ih (looseStep known acc item) ?_
    intro f hf
    unfold looseStep at hf
    revert hf
    split
    · split
      · rename_i a' hfind'
        intro hf
        rcases List.mem_append.mp hf with h | h
        · exact hinv f h
        · have hfe : f = ⟨item.path, FileKind.plan, a'⟩ := by simpa using h
          subst hfe
          simp only
          intro hfp
          rw [hfp] at hfind'
          rw [hfind] at hfind'
          exact Option.noConfusion hfind'
      · intro hf
        exact hinv f hf
    · intro hf
      exact hinv f hf

/-! ## Lemmas: classifier facts -/

theorem classifyPath_governance (p : String)
    (hup : p.data.map Char.toUpper = "AGENTS.MD".data ∨
           p.data.map Char.toUpper = "CLAUDE.MD".data) :
    classifyPath p = some ⟨p, FileKind.governance, "_SHARED"⟩ := by
  have h1 : ciDropPre? p.data "docs/prompts/planning-".data = none := by
    apply ciDropPre?_eq_none
    rcases hup with hup | hup <;> rw [hup] <;> decide
  have h2 : ciDropPre? p.data "docs/prompts/execution-".data = none := by
    apply ciDropPre?_eq_none
    rcases hup with hup | hup <;> rw [hup] <;> decide
  have h3 : ciDropPre? p.data "docs/prompts/".data = none := by
    apply ciDropPre?_eq_none
    rcases hup with hup | hup <;> rw [hup] <;> decide
  have h4 : ciDropPre? p.data "docs/status/".data = none := by
    apply ciDropPre?_eq_none
    rcases hup with hup | hup <;> rw [hup] <;> decide
  have h5 : ciDropPre? p.data "docs/PROGRESS-".data = none := by
    apply ciDropPre?_eq_none
    rcases hup with hup | hup <;> rw [hup] <;> decide
  have h6 : ciDropPre? p.data ".sys/plans/".data = none := by
    apply ciDropPre?_eq_none
    rcases hup with hup | hup <;> rw [hup] <;> decide
  rcases hup with hup | hup
  · have hag : isAgentsMd p = true := by
      unfold isAgentsMd
      rw [hup]
      simp
    simp [classifyPath, matchPlanning, matchExecution, matchPromptGeneric, matchStatus,
      matchProgress, matchPlanSubdir, capMid, h1, h2, h3, h4, h5, h6, hag]
  · have hag : isAgentsMd p = false := by
      unfold isAgentsMd
      rw [hup]
      decide
    have hcl : isClaudeMd p = true := by
      unfold isClaudeMd
      rw [hup]
      simp
    simp [classifyPath, matchPlanning, matchExecution, matchPromptGeneric, matchStatus,
      matchProgress, matchPlanSubdir, capMid, h1, h2, h3, h4, h5, h6, hag, hcl]

theorem anyPromptPair_iff (files : List ClassifiedFile) :
    (files.any (fun f => f.fileType == FileKind.planningPrompt) ||
     files.any (fun f => f.fileType == FileKind.executionPrompt)) = true ↔
    ∃ f ∈ files,
      f.fileType = FileKind.planningPrompt ∨ f.fileType = FileKind.executionPrompt := by
  simp only [Bool.or_eq_true, List.any_eq_true, beq_iff_eq]
  constructor
  · rintro (⟨f, hf, h⟩ | ⟨f, hf, h⟩)
    exacts [⟨f, hf, Or.inl h⟩, ⟨f, hf, Or.inr h⟩]
  · rintro ⟨f, hf, h | h⟩
    exacts [Or.inl ⟨f, hf, h⟩, Or.inr ⟨f, hf, h⟩]

theorem boundaryPathOf_eq_none {files : List ClassifiedFile}
    (h : ∀ f ∈ files, f.fileType = FileKind.governance ∨ f.fileType = FileKind.other) :
    boundaryPathOf files = none := by
  have h1 : files.find? (fun f => f.fileType == FileKind.planningPrompt) = none := by
    rw [List.find?_eq_none]
    intro f hf
    rcases h f hf with h2 | h2 <;> simp [h2]
  have h2 : files.find? (fun f => f.fileType == FileKind.executionPrompt) = none := by
    rw [List.find?_eq_none]
    intro f hf
    rcases h f hf with h2 | h2 <;> simp [h2]
  have h3 : files.find? (fun f => f.fileType == FileKind.prompt) = none := by
    rw [List.find?_eq_none]
    intro f hf
    rcases h f hf with h2 | h2 <;> simp [h2]
  simp [boundaryPathOf, h1, h2, h3]

/-! ## Claim theorems -/

/-- C1: for every role produced by scan, category is shared iff the
group's agent name is the sentinel _SHARED; for every other role,
category is domain iff the group's file set contains at least one
planning-prompt or execution-prompt file, and daily otherwise. -/
theorem c1_category_invariant (tree : List TreeEntry) (c d : String → Option String)
    (r : Role) (hr : r ∈ scan tree c d) :
    ∃ g, g ∈ groupByAgent (allClassified tree) ∧ r = buildRole c d g ∧
      (r.category = "shared" ↔ g.1 = "_SHARED") ∧
      (g.1 ≠ "_SHARED" →
        ((r.category = "domain") ↔ ∃ f ∈ g.2,
          f.fileType = FileKind.planningPrompt ∨ f.fileType = FileKind.executionPrompt) ∧
        ((r.category = "daily") ↔ ¬ ∃ f ∈ g.2,
          f.fileType = FileKind.planningPrompt ∨ f.fileType = FileKind.executionPrompt)) := by
  obtain ⟨g, hg, hr2⟩ := List.mem_map.mp hr
  subst hr2
  refine ⟨g, hg, rfl, ?_, ?_⟩
  · rw [buildRole_category]
    by_cases h : g.1 = "_SHARED"
    · simp [h]
    · rw [if_neg h]
      cases hd : (g.2.any (fun f => f.fileType == FileKind.planningPrompt) ||
          g.2.any (fun f => f.fileType == FileKind.executionPrompt)) <;>
        simp only [hd, if_true, if_false, Bool.false_eq_true, ite_false, ite_true] <;>
        exact iff_of_false (by decide) h
  · intro h
    by_cases hd : (g.2.any (fun f => f.fileType == FileKind.planningPrompt) ||
        g.2.any (fun f => f.fileType == FileKind.executionPrompt)) = true
    · have hcat : (buildRole c d g).category = "domain" := by
        rw [buildRole_category]
        simp [h, hd]
      constructor
      · rw [hcat]
        exact iff_of_true rfl ((anyPromptPair_iff g.2).mp hd)
      · rw [hcat]
        exact iff_of_false (by decide) (fun hn => hn ((anyPromptPair_iff g.2).mp hd))
    · have hd2 : (g.2.any (fun f => f.fileType == FileKind.planningPrompt) ||
          g.2.any (fun f => f.fileType == FileKind.executionPrompt)) = false :=
        Bool.eq_false_iff.mpr hd
      have hcat : (buildRole c d g).category = "daily" := by
        rw [buildRole_category]
        simp [h, hd2]
      constructor
      · rw [hcat]
        exact iff_of_false (by decide) (fun hp => hd ((anyPromptPair_iff g.2).mpr hp))
      · rw [hcat]
        exact iff_of_true rfl (fun hp => hd ((anyPromptPair_iff g.2).mpr hp))

/-- Witness for C1 at a concrete input: one governance file. -/
theorem c1_category_invariant_witness :
    ∃ g, g ∈ groupByAgent (allClassified [⟨"blob", "AGENTS.md"⟩]) ∧
      ({ name := "SHARED", description := none,
         files := [⟨"AGENTS.md", FileKind.governance, none⟩],
         category := "shared", boundaries := none, status := "active" } : Role) =
        buildRole (fun _ => none) (fun _ => none) g ∧
      (("shared" : String) = "shared" ↔ g.1 = "_SHARED") ∧
      (g.1 ≠ "_SHARED" →
        ((("shared" : String) = "domain") ↔ ∃ f ∈ g.2,
          f.fileType = FileKind.planningPrompt ∨ f.fileType = FileKind.executionPrompt) ∧
        ((("shared" : String) = "daily") ↔ ¬ ∃ f ∈ g.2,
          f.fileType = FileKind.planningPrompt ∨ f.fileType = FileKind.executionPrompt)) :=
  c1_category_invariant [⟨"blob", "AGENTS.md"⟩] (fun _ => none) (fun _ => none)
    { name := "SHARED", description := none,
      files := [⟨"AGENTS.md", FileKind.governance, none⟩],
      category := "shared", boundaries := none, status := "active" } (by decide)

/-- C2 counterexample: the path docs/prompts/planning-_shared.md matches
the planning pattern with capture _shared, whose upper-casing is the
sentinel _SHARED, so the role that receives the file has category
shared, not domain, contradicting the claim. -/
theorem c2_planning_shared_cex :
    classifyPath "docs/prompts/planning-_shared.md" =
      some ⟨"docs/prompts/planning-_shared.md", FileKind.planningPrompt, "_SHARED"⟩ ∧
    (scan [⟨"blob", "docs/prompts/planning-_shared.md"⟩] (fun _ => none) (fun _ => none)).map
      (fun r => r.category) = ["shared"] ∧
    ("shared" : String) ≠ "domain" := by
  refine ⟨by decide, by decide, by decide⟩

/-- C2 (amended): a path matching the planning pattern classifies as a
planning prompt with the capture upper-cased — never falling through to
the generic prompt rule — and, provided the upper-cased capture is not
the _SHARED sentinel, the role receiving the file has category domain.
(When the capture upper-cases to _SHARED the file joins the shared
group and the role has category shared, per the counterexample.) -/
theorem c2_planning_classification (p n : String) (hm : matchPlanning p = some n) :
    classifyPath p = some ⟨p, FileKind.planningPrompt, jsToUpper n⟩ ∧
    (∀ (tree : List TreeEntry) (c d : String → Option String),
      (⟨"blob", p⟩ : TreeEntry) ∈ tree → jsToUpper n ≠ "_SHARED" →
      ∃ r ∈ scan tree c d, r.name = jsToUpper n ∧ r.category = "domain") := by
  have hcl : classifyPath p = some ⟨p, FileKind.planningPrompt, jsToUpper n⟩ := by
    simp [classifyPath, hm]
  refine ⟨hcl, ?_⟩
  intro tree c d htree hns
  have hmem : (⟨p, FileKind.planningPrompt, jsToUpper n⟩ : ClassifiedFile) ∈
      allClassified tree :=
    mem_allClassified_of_primary (mem_primaryPass htree hcl)
  obtain ⟨hg, hf, hscan⟩ := role_of_classified c d hmem
  refine ⟨_, hscan, ?_, ?_⟩
  · rw [buildRole_name]
    exact if_neg hns
  · rw [buildRole_category]
    rw [if_neg hns]
    have hany : ((allClassified tree).filter
        (fun x => x.agentName == (⟨p, FileKind.planningPrompt, jsToUpper n⟩ :
          ClassifiedFile).agentName)).any
        (fun f => f.fileType == FileKind.planningPrompt) = true :=
      List.any_eq_true.mpr ⟨_, hf, by simp⟩
    simp [hany]

/-- Witness for C2 at a concrete input. -/
theorem c2_planning_classification_witness :
    classifyPath "docs/prompts/planning-player.md" =
      some ⟨"docs/prompts/planning-player.md", FileKind.planningPrompt, "PLAYER"⟩ ∧
    ∃ r ∈ scan [⟨"blob", "docs/prompts/planning-player.md"⟩]
        (fun _ => none) (fun _ => none),
      r.name = "PLAYER" ∧ r.category = "domain" := by
  have h := c2_planning_classification "docs/prompts/planning-player.md" "player" (by decide)
  have hup : jsToUpper "player" = "PLAYER" := by decide
  constructor
  · rw [← hup]
    exact h.1
  · have h2 := h.2 [⟨"blob", "docs/prompts/planning-player.md"⟩]
      (fun _ => none) (fun _ => none) (by decide) (by decide)
    rw [hup] at h2
    exact h2

/-- C4: a blob path of the form .sys/plans/NAME.md that pass 1 left
unclassified is attributed by the loose-plan pass to the first known
agent (in set iteration order) contained in its upper-cased filename,
with kind plan; when no known agent name is contained, no classified
file carries that path and it is dropped. -/
theorem c4_loose_plan_attribution (tree : List TreeEntry) (p : String)
    (hblob : (⟨"blob", p⟩ : TreeEntry) ∈ tree)
    (htest : loosePlanTest p = true)
    (hun : ∀ f ∈ primaryPass tree, f.path ≠ p) :
    (∀ a, looseAgentFor (knownAgentsOf (primaryPass tree)) p = some a →
      (⟨p, FileKind.plan, a⟩ : ClassifiedFile) ∈ allClassified tree) ∧
    (looseAgentFor (knownAgentsOf (primaryPass tree)) p = none →
      ∀ f ∈ allClassified tree, f.path ≠ p) := by
  constructor
  · intro a hfind
    exact loose_added hfind htest tree (primaryPass tree)
      (fun f hf hfp => absurd hfp (hun f hf)) (Or.inl hblob)
  · intro hfind
    exact loose_not_added hfind tree (primaryPass tree) hun

/-- Witness for C4: the loose plan file of the specification example is
attributed to PLAYER with kind plan. -/
theorem c4_loose_plan_attribution_witness :
    (⟨".sys/plans/2026-10-29-PLAYER-Async-Seek.md", FileKind.plan, "PLAYER"⟩ :
      ClassifiedFile) ∈
    allClassified [⟨"blob", "docs/prompts/planning-player.md"⟩,
      ⟨"blob", ".sys/plans/2026-10-29-PLAYER-Async-Seek.md"⟩] :=
  (c4_loose_plan_attribution
    [⟨"blob", "docs/prompts/planning-player.md"⟩,
     ⟨"blob", ".sys/plans/2026-10-29-PLAYER-Async-Seek.md"⟩]
    ".sys/plans/2026-10-29-PLAYER-Async-Seek.md"
    (by decide) (by decide) (by decide)).1 "PLAYER" (by decide)

/-- C6: any path equal to AGENTS.md or CLAUDE.md up to case classifies
as governance with the _SHARED sentinel, and whatever else the tree
contains, the scan output has a role displayed SHARED with category
shared. -/
theorem c6_governance_shared (p : String)
    (hp : jsToUpper p = "AGENTS.MD" ∨ jsToUpper p = "CLAUDE.MD") :
    classifyPath p = some ⟨p, FileKind.governance, "_SHARED"⟩ ∧
    (∀ (tree : List TreeEntry) (c d : String → Option String),
      (⟨"blob", p⟩ : TreeEntry) ∈ tree →
      ∃ r ∈ scan tree c d, r.name = "SHARED" ∧ r.category = "shared") := by
  have hup : p.data.map Char.toUpper = "AGENTS.MD".data ∨
      p.data.map Char.toUpper = "CLAUDE.MD".data := by
    rcases hp with hp | hp
    · exact Or.inl (congrArg String.data hp)
    · exact Or.inr (congrArg String.data hp)
  have hcl := classifyPath_governance p hup
  refine ⟨hcl, ?_⟩
  intro tree c d htree
  have hmem : (⟨p, FileKind.governance, "_SHARED"⟩ : ClassifiedFile) ∈ allClassified tree :=
    mem_allClassified_of_primary (mem_primaryPass htree hcl)
  obtain ⟨hg, hf, hscan⟩ := role_of_classified c d hmem
  refine ⟨_, hscan, ?_, ?_⟩
  · simp [buildRole_name]
  · simp [buildRole_category]

/-- Witness for C6 at a concrete mixed-case input. -/
theorem c6_governance_shared_witness :
    classifyPath "Agents.MD" = some ⟨"Agents.MD", FileKind.governance, "_SHARED"⟩ ∧
    ∃ r ∈ scan [⟨"blob", "other.txt"⟩, ⟨"blob", "Agents.MD"⟩]
        (fun _ => none) (fun _ => none),
      r.name = "SHARED" ∧ r.category = "shared" :=
  have h := c6_governance_shared "Agents.MD" (Or.inl (by decide))
  ⟨h.1, h.2 [⟨"blob", "other.txt"⟩, ⟨"blob", "Agents.MD"⟩]
    (fun _ => none) (fun _ => none) (by decide)⟩

/-- C5: a content-provider failure for a chosen description source never
aborts the scan or removes a role: the role list, with its names,
categories, file lists and statuses, does not depend on the content
provider at all, and the affected role carries description null. -/
theorem c5_fetch_failure_resilience (tree : List TreeEntry)
    (c c' d : String → Option String) :
    ((scan tree c d).map (fun r => (r.name, r.category, r.files, r.status)) =
      (scan tree c' d).map (fun r => (r.name, r.category, r.files, r.status))) ∧
    (∀ g ∈ groupByAgent (allClassified tree), ∀ dp, descPathOf g.2 = some dp →
      c dp = none →
      buildRole c d g ∈ scan tree c d ∧ (buildRole c d g).description = none) := by
  constructor
  · unfold scan
    rw [List.map_map, List.map_map]
    congr 1
  · intro g hg dp hdp hc
    refine ⟨mem_scan_of_group hg, ?_⟩
    rw [buildRole_description, hdp]
    simp [contentGet, hc]

/-- Witness for C5 at a concrete input: the provider fails, the role
still appears with a null description. -/
theorem c5_fetch_failure_resilience_witness :
    buildRole (fun _ => none) (fun _ => none)
        ("PLAYER", [⟨"docs/status/player.md", FileKind.status, "PLAYER"⟩]) ∈
      scan [⟨"blob", "docs/status/player.md"⟩] (fun _ => none) (fun _ => none) ∧
    (buildRole (fun _ => none) (fun _ => none)
        ("PLAYER", [⟨"docs/status/player.md", FileKind.status, "PLAYER"⟩])).description =
      none :=
  (c5_fetch_failure_resilience [⟨"blob", "docs/status/player.md"⟩]
    (fun _ => none) (fun _ => some "text") (fun _ => none)).2
    ("PLAYER", [⟨"docs/status/player.md", FileKind.status, "PLAYER"⟩])
    (by decide) "docs/status/player.md" (by decide) rfl

/-- C7: the scan output is a deterministic function of the tree and the
two lookup batches: providers that agree pointwise yield identical role
lists, so two invocations with unchanged inputs produce the same list. -/
theorem c7_scan_deterministic (tree : List TreeEntry)
    (c c' d d' : String → Option String)
    (hc : ∀ p, c p = c' p) (hd : ∀ p, d p = d' p) :
    scan tree c d = scan tree c' d' := by
  have h1 : c = c' := funext hc
  have h2 : d = d' := funext hd
  rw [h1, h2]

/-- Witness for C7 at a concrete input. -/
theorem c7_scan_deterministic_witness :
    scan [⟨"blob", "AGENTS.md"⟩] (fun _ => some "x") (fun _ => none) =
    scan [⟨"blob", "AGENTS.md"⟩] (fun p => some "x") (fun p => none) :=
  c7_scan_deterministic [⟨"blob", "AGENTS.md"⟩] (fun _ => some "x") (fun p => some "x")
    (fun _ => none) (fun p => none) (fun _ => rfl) (fun _ => rfl)

/-- C8 counterexample: a fetch that succeeds with empty text is treated
by the code as a failed fetch, so the description is null rather than
the synthesized Agent string the claim requires for an empty trimmed
prefix with a successful fetch. -/
theorem c8_empty_content_cex :
    (scan [⟨"blob", "docs/status/player.md"⟩] (fun _ => some "") (fun _ => none)).map
      (fun r => r.description) = [none] ∧
    (none : Option String) ≠ some "Agent: PLAYER" := by
  exact ⟨by decide, by decide⟩

/-- C8 (amended): description is the first five lines of the
description source's fetched content, joined and trimmed; when that
trimmed prefix is empty and the fetch succeeded with non-empty text, the
synthesized Agent string is used; when no description source exists, the
fetch failed, or the fetched text is empty, description is null. -/
theorem c8_description_rule (tree : List TreeEntry) (c d : String → Option String)
    (g : String × List ClassifiedFile) (hg : g ∈ groupByAgent (allClassified tree)) :
    buildRole c d g ∈ scan tree c d ∧
    (buildRole c d g).description = c8DescSpec g.1 (descPathOf g.2) c := by
  refine ⟨mem_scan_of_group hg, ?_⟩
  rw [buildRole_description]
  unfold c8DescSpec
  cases hdp : descPathOf g.2 with
  | none => rfl
  | some dp =>
    cases hc : c dp with
    | none => simp [contentGet, hc]
    | some ct =>
      by_cases hct : ct = ""
      · simp [contentGet, hc, hct]
      · simp [contentGet, hc, hct]

/-- Witness for C8 at a concrete input with non-empty content. -/
theorem c8_description_rule_witness :
    buildRole (fun _ => some "# Player status\nLine two") (fun _ => none)
        ("PLAYER", [⟨"docs/status/player.md", FileKind.status, "PLAYER"⟩]) ∈
      scan [⟨"blob", "docs/status/player.md"⟩]
        (fun _ => some "# Player status\nLine two") (fun _ => none) ∧
    (buildRole (fun _ => some "# Player status\nLine two") (fun _ => none)
        ("PLAYER", [⟨"docs/status/player.md", FileKind.status, "PLAYER"⟩])).description =
      c8DescSpec "PLAYER"
        (descPathOf [⟨"docs/status/player.md", FileKind.status, "PLAYER"⟩])
        (fun _ => some "# Player status\nLine two") :=
  c8_description_rule [⟨"blob", "docs/status/player.md"⟩]
    (fun _ => some "# Player status\nLine two") (fun _ => none)
    ("PLAYER", [⟨"docs/status/player.md", FileKind.status, "PLAYER"⟩]) (by decide)

/-- C9 counterexample: the path docs/prompts/planning-_shared.md puts a
planning-prompt file into the _SHARED group, so the SHARED role gets a
boundary path and non-null boundaries, contradicting the claim. -/
theorem c9_shared_boundaries_cex :
    (scan [⟨"blob", "docs/prompts/planning-_shared.md"⟩]
        (fun _ => some "## Boundaries\n- no ui\n") (fun _ => none)).map
      (fun r => (r.name, r.boundaries)) = [("SHARED", some ["no ui"])] := by
  decide

/-- C9 (amended): whenever every file grouped under the _SHARED
sentinel has kind governance or other — which the governance and
.github/agents patterns alone always produce — the SHARED role's
boundary-source selection finds nothing and boundaries is null.  (A
prompt-pattern capture upper-casing to _SHARED, as in the
counterexample, can inject other kinds and non-null boundaries.) -/
theorem c9_shared_boundaries (tree : List TreeEntry) (c d : String → Option String)
    (g : String × List ClassifiedFile) (hg : g ∈ groupByAgent (allClassified tree))
    (hsh : g.1 = "_SHARED")
    (hkinds : ∀ f ∈ g.2, f.fileType = FileKind.governance ∨ f.fileType = FileKind.other) :
    buildRole c d g ∈ scan tree c d ∧ (buildRole c d g).name = "SHARED" ∧
    (buildRole c d g).boundaries = none := by
  refine ⟨mem_scan_of_group hg, ?_, ?_⟩
  · rw [buildRole_name, if_pos hsh]
  · rw [buildRole_boundaries, boundaryPathOf_eq_none hkinds]

/-- Witness for C9 at a concrete input, with boundary-looking content
available from the provider. -/
theorem c9_shared_boundaries_witness :
    buildRole (fun _ => some "## Boundaries\n- x\n") (fun _ => none)
        ("_SHARED", [⟨"AGENTS.md", FileKind.governance, "_SHARED"⟩]) ∈
      scan [⟨"blob", "AGENTS.md"⟩] (fun _ => some "## Boundaries\n- x\n")
        (fun _ => none) ∧
    (buildRole (fun _ => some "## Boundaries\n- x\n") (fun _ => none)
        ("_SHARED", [⟨"AGENTS.md", FileKind.governance, "_SHARED"⟩])).name = "SHARED" ∧
    (buildRole (fun _ => some "## Boundaries\n- x\n") (fun _ => none)
        ("_SHARED", [⟨"AGENTS.md", FileKind.governance, "_SHARED"⟩])).boundaries = none :=
  c9_shared_boundaries [⟨"blob", "AGENTS.md"⟩] (fun _ => some "## Boundaries\n- x\n")
    (fun _ => none) ("_SHARED", [⟨"AGENTS.md", FileKind.governance, "_SHARED"⟩])
    (by decide) rfl (by decide)

/-- C3 counterexample: a dash line indented by spaces passes the filter
(its trimmed form starts with a dash) but the anchored replace does not
fire, so the dash is kept, where the claim requires it stripped. -/
theorem c3_indented_dash_cex :
    (scan [⟨"blob", "docs/prompts/guard.md"⟩]
        (fun _ => some "## Boundaries\n  - must not touch UI\n- ok\n## Other")
        (fun _ => none)).map (fun r => r.boundaries) =
      [some ["- must not touch UI", "ok"]] ∧
    ("- must not touch UI" : String) ≠ "must not touch UI" := by
  exact ⟨by decide, by decide⟩

/-- C3 (amended): boundary extraction equals the line-level
specification reading — section lines are those after the header up to
the next line opening with two hashes or the end of text; kept lines are
those starting with a dash after trimming; an un-indented dash plus
following whitespace is stripped and the line trimmed, while an indented
dash line is only trimmed — and on the specification's concrete examples
the scan yields the stated boundaries, with null for missing headers and
empty sections. -/
theorem c3_boundary_extraction :
    (∀ content : String, extractBoundaries content = c3BoundariesSpec content) ∧
    (scan [⟨"blob", "docs/prompts/guard.md"⟩]
        (fun _ => some "## Boundaries\n- must not touch UI\n- must not touch audio\n## Other")
        (fun _ => none)).map (fun r => r.boundaries) =
      [some ["must not touch UI", "must not touch audio"]] ∧
    (scan [⟨"blob", "docs/prompts/guard.md"⟩]
        (fun _ => some "A prompt with no boundary section at all.")
        (fun _ => none)).map (fun r => r.boundaries) = [none] ∧
    (scan [⟨"blob", "docs/prompts/guard.md"⟩]
        (fun _ => some "## Boundaries\n## Other")
        (fun _ => none)).map (fun r => r.boundaries) = [none] :=
  ⟨extractBoundaries_eq_spec, by decide, by decide, by decide⟩

/-- C10: the boundary section is located by an unanchored
case-insensitive substring search for the header literal followed
immediately by a newline — succeeding also mid-line or inside a longer
heading — and a header that ends the file without a trailing newline is
never found, leaving boundaries null. -/
theorem c10_header_search :
    (∀ content : String, (extractBoundaries content).isSome = true ↔
      ∃ a b, content.data.map Char.toUpper = a ++ "## BOUNDARIES\n".data ++ b) ∧
    extractBoundaries "### Boundaries\n- a" = some ["a"] ∧
    extractBoundaries "x ## Boundaries\n- m" = some ["m"] ∧
    extractBoundaries "intro\n## Boundaries" = none ∧
    (scan [⟨"blob", "docs/prompts/guard.md"⟩]
        (fun _ => some "Intro text\n## Boundaries") (fun _ => none)).map
      (fun r => r.boundaries) = [none] := by
  refine ⟨?_, by decide, by decide, by decide, by decide⟩
  intro content
  have h1 : (extractBoundaries content).isSome = (dropToHeader content.data).isSome := by
    unfold extractBoundaries
    cases h : dropToHeader content.data
    · rfl
    · rfl
  have hh : hdrChars.map Char.toUpper = "## BOUNDARIES\n".data := by decide
  rw [h1, ← hh]
  exact dropToHeader_isSome_iff content.data

end BHOrch
